import Mathlib

/-!
Verification of the cryptographic core of the `fdc` federated data-chaining
library (crates `fdc-core` and `fdc-client-api`) against its specification.

Embedding conventions, used throughout:

* The scalar field of the Ristretto group (`curve25519_dalek::scalar::Scalar`)
  is `ZMod q`, with the order `q` kept as a parameter.  In the reference,
  `q = 2 ^ 252 + 27742317777372353535851937790883648493`, a prime; witnesses
  instantiate `q` with small primes so that the kernel can evaluate them.
* A `RistrettoPoint` is represented by its discrete logarithm with respect to
  the fixed basepoint `G`.  This is faithful: the Ristretto group is cyclic of
  prime order `q`, so `n • G ↦ n mod q` is a group isomorphism under which
  point addition is field addition and `s·P` is field multiplication.
* Byte strings (`Vec<u8>`, hashes, ciphertexts) are `List ℕ`.
* The external primitives used by the crates — SHA-512 (`sha2`), canonical
  wide scalar reduction of digests, AES-CBC streaming encryption
  (`crypto`/`aesstream`) and `bincode` serialization — are not part of this
  repository; they are gathered in a `HashEnv` record and the theorems
  quantify over it, taking the documented round-trip contracts
  (`decrypt ∘ encrypt = id`, `deserialize ∘ serialize = id`) as hypotheses.
  Witnesses instantiate the record with small concrete executable functions.
* Randomness (`SecretKey::rand`, ephemeral scalars `k`, `crate::rand`) is
  externalized: each drawn value is an explicit parameter of the model.
* Rust `Result<T>` with the crate's string errors becomes `Except Err T` with
  a tagged error type mirroring the spec's §7 error kinds.
-/

namespace Fdc

/-- Byte strings are modelled as lists of naturals (each entry one byte). -/
abbrev Bytes := List ℕ

/-- The error kinds of the core boundary (spec §7).  The source carries them
as strings; the mapping is: "Invalid record signature!" ↦ `invalidSignature`,
"Record is not a head type!" ↦ `notHeadRecord`, "Record is not a tail type!"
↦ `notTailRecord`, "Incorrect hash chain!" ↦ `brokenChain`, decryptor errors
↦ `decryptFailed`, `bincode` errors ↦ `deserializeFailed`.  `missingLambda`
models the `unwrap` panic in `RecordChain::recover` when a needed lambda is
absent. -/
inductive Err
  | invalidSignature
  | notHeadRecord
  | notTailRecord
  | brokenChain
  | decryptFailed
  | deserializeFailed
  | missingLambda
deriving DecidableEq

/-- `PublicKey(RistrettoPoint)` from `fdc-core/src/crypto/keys.rs`,
represented by the discrete logarithm of the point in base `G`. -/
structure PublicKey (q : ℕ) where
  v : ZMod q
deriving DecidableEq

/-- The fixed basepoint `G = RISTRETTO_BASEPOINT_POINT`; discrete log 1. -/
def G (q : ℕ) : PublicKey q := ⟨1⟩

/-- `PublicKey::zero` — the group identity (`RistrettoPoint::default`). -/
def PublicKey.zero (q : ℕ) : PublicKey q := ⟨0⟩

/-- Point addition (`Add for PublicKey`). -/
def PublicKey.add {q : ℕ} (P Q : PublicKey q) : PublicKey q := ⟨P.v + Q.v⟩

/-- Point subtraction (`Sub for PublicKey`). -/
def PublicKey.sub {q : ℕ} (P Q : PublicKey q) : PublicKey q := ⟨P.v - Q.v⟩

/-- Scalar multiplication `s·P` (`Mul<PublicKey> for SecretKey`). -/
def smul {q : ℕ} (s : ZMod q) (P : PublicKey q) : PublicKey q := ⟨s * P.v⟩

/-- Little-endian byte rendering of a natural, fixed length. -/
def bytesLE (len n : ℕ) : Bytes := (List.range len).map fun i => n / 256 ^ i % 256

/-- Little-endian value of a byte string. -/
def bytesVal : Bytes → ℕ
  | [] => 0
  | b :: rest => b + 256 * bytesVal rest

/-- `SecretKey::encode` without the base64 transport (the base64 step is the
external `base64` crate): the canonical 32-byte little-endian encoding. -/
def SecretKey.encode (q : ℕ) (s : ZMod q) : Bytes := bytesLE 32 s.val

/-- `SecretKey::decode` without the base64 transport: fails when fewer than
32 bytes arrive, takes the first 32, and fails when the value is not a
canonical scalar (`Scalar::from_canonical_bytes`, i.e. value `≥ q`). -/
def SecretKey.decode (q : ℕ) (b : Bytes) : Option (ZMod q) :=
  if b.length < 32 then none
  else
    let n := bytesVal (b.take 32)
    if n < q then some (n : ZMod q) else none

/-- `PublicKey::to_bytes` — the 32-byte compressed encoding, abstracted to a
canonical injective 32-byte rendering of the point. -/
def PublicKey.toBytes {q : ℕ} (P : PublicKey q) : Bytes := bytesLE 32 P.v.val

/-- `PublicKey::decode` without the base64 transport: length check, then
decompression; failure to decompress is modelled as the canonicity check. -/
def PublicKey.decode (q : ℕ) (b : Bytes) : Option (PublicKey q) :=
  if b.length < 32 then none
  else
    let n := bytesVal (b.take 32)
    if n < q then some ⟨(n : ZMod q)⟩ else none

/-- `KeyPair { secret, key }` from `keys.rs`. -/
structure KeyPair (q : ℕ) where
  secret : ZMod q
  key : PublicKey q
deriving DecidableEq

/-- `KeyPair::rand`: the freshly drawn secret scalar is the parameter `s`;
the public half is computed as `&secret * G`. -/
def KeyPair.rand (q : ℕ) (s : ZMod q) : KeyPair q := ⟨s, smul s (G q)⟩

/-- `KeyPair::load`: decodes the two halves independently; the source
performs no consistency check between them. -/
def KeyPair.load (q : ℕ) (sb kb : Bytes) : Option (KeyPair q) := do
  let s ← SecretKey.decode q sb
  let k ← PublicKey.decode q kb
  some ⟨s, k⟩

/-- `KeySize` from `keys.rs`. -/
inductive KeySize
  | S128
  | S192
  | S256
  | S512
deriving DecidableEq

/-- `KeySize::size` — the size in bits. -/
def KeySize.size : KeySize → ℕ
  | .S128 => 128
  | .S192 => 192
  | .S256 => 256
  | .S512 => 512

/-- `Share { i: u32, yi: Scalar }` from `shares.rs`; the index is kept as a
natural, with the `u32` truncation applied where the source casts. -/
structure Share (q : ℕ) where
  i : ℕ
  yi : ZMod q
deriving DecidableEq

/-- `PublicShare { i: u32, Yi: Point }` from `shares.rs`. -/
structure PublicShare (q : ℕ) where
  i : ℕ
  Yi : PublicKey q
deriving DecidableEq

/-- `Add<SecretKey> for Share` (the direct, left-to-right impl). -/
def Share.addS {q : ℕ} (sh : Share q) (s : ZMod q) : Share q := ⟨sh.i, sh.yi + s⟩

/-- `Sub<SecretKey> for Share`. -/
def Share.subS {q : ℕ} (sh : Share q) (s : ZMod q) : Share q := ⟨sh.i, sh.yi - s⟩

/-- The reversed-order mixed addition `SecretKey + Share`, generated by the
`Commutative` arm of the `add_variants!` macro in `crypto/macros.rs`.  That
arm expands to `fn add(self, lhs) { lhs - self }`, i.e. it delegates to
subtraction. -/
def addSecretShare {q : ℕ} (s : ZMod q) (sh : Share q) : Share q := sh.subS s

/-- `Mul<PublicKey> for Share` — projects a share through a point. -/
def Share.mulP {q : ℕ} (sh : Share q) (P : PublicKey q) : PublicShare q :=
  ⟨sh.i, smul sh.yi P⟩

/-- `Add<PublicKey> for PublicShare` (the direct impl). -/
def PublicShare.addP {q : ℕ} (sh : PublicShare q) (P : PublicKey q) : PublicShare q :=
  ⟨sh.i, sh.Yi.add P⟩

/-- `Sub<PublicKey> for PublicShare`. -/
def PublicShare.subP {q : ℕ} (sh : PublicShare q) (P : PublicKey q) : PublicShare q :=
  ⟨sh.i, sh.Yi.sub P⟩

/-- The reversed-order mixed addition `PublicKey + PublicShare`, generated by
the same `Commutative` arm of `add_variants!`: it delegates to `lhs - self`. -/
def addKeyPublicShare {q : ℕ} (P : PublicKey q) (sh : PublicShare q) : PublicShare q :=
  sh.subP P

/-- `Polynomial { a: Vec<SecretKey> }` from `shares.rs`. -/
structure Polynomial (q : ℕ) where
  a : List (ZMod q)
deriving DecidableEq

/-- `PublicPolynomial { A: Vec<PublicKey> }` from `shares.rs`. -/
structure PublicPolynomial (q : ℕ) where
  A : List (PublicKey q)
deriving DecidableEq

/-- Horner evaluation as written in `Evaluate for Polynomial`: iterate the
coefficients in reverse, seed with the highest one, fold
`acc * x + coef`.  The source `unwrap`s the first element and panics on an
empty coefficient list; that unreachable case is modelled as `0`. -/
def hornerEval {q : ℕ} (l : List (ZMod q)) (x : ZMod q) : ZMod q :=
  match l.reverse with
  | [] => 0
  | h :: t => t.foldl (fun acc coef => acc * x + coef) h

/-- `Polynomial::evaluate`. -/
def Polynomial.evaluate {q : ℕ} (p : Polynomial q) (x : ZMod q) : ZMod q :=
  hornerEval p.a x

/-- `Polynomial::rand(secret, degree)`: the `degree` freshly drawn
coefficients are the parameter `rndCoefs` (randomness externalized); the
secret is the constant term. -/
def Polynomial.rand (q : ℕ) (secret : ZMod q) (rndCoefs : List (ZMod q)) : Polynomial q :=
  ⟨secret :: rndCoefs⟩

/-- `Polynomial::shares(n)`: one share per `j = 1..=n`, evaluated at
`from(j as u64)` and indexed by `j as u32` (hence the `% 2 ^ 32`). -/
def Polynomial.shares {q : ℕ} (p : Polynomial q) (n : ℕ) : List (Share q) :=
  (List.range n).map fun j0 =>
    let j := j0 + 1
    { i := j % 2 ^ 32, yi := p.evaluate ((j : ℕ) : ZMod q) }

/-- `Polynomial::l_i(range, i)`: the Lagrange coefficient loop — one pass
over the index range accumulating the numerator and denominator products,
then one multiplication by the denominator's inverse. -/
def Polynomial.l_i {q : ℕ} (range : List (ZMod q)) (i : ℕ) : ZMod q :=
  let step : (ZMod q × ZMod q) → ℕ → (ZMod q × ZMod q) := fun acc j =>
    if j ≠ i then
      (acc.1 * range.getD j 0, acc.2 * (range.getD j 0 - range.getD i 0))
    else acc
  let r := (List.range range.length).foldl step (1, 1)
  r.1 * r.2⁻¹

/-- `Mul<PublicKey> for Polynomial`: coefficient-wise projection. -/
def Polynomial.mulP {q : ℕ} (p : Polynomial q) (P : PublicKey q) : PublicPolynomial q :=
  ⟨p.a.map fun ak => smul ak P⟩

/-- Horner evaluation of `Evaluate for PublicPolynomial`: same reverse fold,
with `acc * x` the point-scalar product and `+` point addition. -/
def hornerEvalP {q : ℕ} (l : List (PublicKey q)) (x : ZMod q) : PublicKey q :=
  match l.reverse with
  | [] => ⟨0⟩
  | h :: t => t.foldl (fun acc coef => (smul x acc).add coef) h

/-- `PublicPolynomial::evaluate`. -/
def PublicPolynomial.evaluate {q : ℕ} (pp : PublicPolynomial q) (x : ZMod q) : PublicKey q :=
  hornerEvalP pp.A x

/-- `PublicPolynomial::verify(share)`: evaluate at `from(u64::from(share.i))`
and compare with `share.Yi`. -/
def PublicPolynomial.verify {q : ℕ} (pp : PublicPolynomial q) (sh : PublicShare q) : Bool :=
  decide (sh.Yi = pp.evaluate ((sh.i : ℕ) : ZMod q))

/-- `ShareVector::recover`: Lagrange interpolation at zero, iterating the
shares with their position index. -/
def ShareVector.recover {q : ℕ} (sv : List (Share q)) : ZMod q :=
  let range := sv.map fun s => ((s.i : ℕ) : ZMod q)
  (List.range sv.length).foldl
    (fun acc j => acc + Polynomial.l_i range j * (sv.getD j ⟨0, 0⟩).yi) 0

/-- `Mul<PublicKey> for ShareVector`: share-wise projection. -/
def ShareVector.mulP {q : ℕ} (sv : List (Share q)) (P : PublicKey q) : List (PublicShare q) :=
  sv.map fun s => s.mulP P

/-- `PublicShareVector::recover`: the same interpolation in the group. -/
def PublicShareVector.recover {q : ℕ} (sv : List (PublicShare q)) : PublicKey q :=
  let range := sv.map fun s => ((s.i : ℕ) : ZMod q)
  (List.range sv.length).foldl
    (fun acc j => acc.add (smul (Polynomial.l_i range j) (sv.getD j ⟨0, ⟨0⟩⟩).Yi))
    (PublicKey.zero q)

/-- `RDataRef { ksize, dn, hfile }` from `model/records.rs`. -/
structure RDataRef where
  ksize : KeySize
  dn : Bytes
  hfile : Bytes
deriving DecidableEq

/-- A `LambdaKey` — the 64-byte SHA-512 output used as symmetric keying
material (`keys.rs`).  Kept as raw bytes. -/
abbrev LambdaKey := Bytes

/-- `RData { lprev, dref }` from `model/records.rs`. -/
structure RData where
  lprev : Option LambdaKey
  dref : RDataRef
deriving DecidableEq

/-- `RData::head(ksize, hfile)`.  `crate::rand` is not among the shipped
sources; per the spec (§3), `dn` is "fresh random of length ksize/8 bytes",
so the process RNG is the parameter `rng`, with `rng nbits` the fresh draw
for an `nbits`-bit key.  Note the source stores the hard-coded
`KeySize::S128` in `dref.ksize`, not the `ksize` argument. -/
def RData.head (rng : ℕ → Bytes) (ksize : KeySize) (hfile : Bytes) : RData :=
  ⟨none, ⟨KeySize.S128, rng ksize.size, hfile⟩⟩

/-- `RData::tail(ksize, lprev, hfile)` — same shape with `lprev` present,
and the same hard-coded `KeySize::S128`. -/
def RData.tail (rng : ℕ → Bytes) (ksize : KeySize) (lprev : LambdaKey) (hfile : Bytes) : RData :=
  ⟨some lprev, ⟨KeySize.S128, rng ksize.size, hfile⟩⟩

/-- `REncData { kn, ciphertext }` from `model/records.rs`. -/
structure REncData (q : ℕ) where
  kn : PublicKey q
  ciphertext : Bytes
deriving DecidableEq

/-- The external primitives the core calls into, none of which live in this
repository: SHA-512 (`sha2` crate) both as a byte digest and reduced wide to
a scalar, AES-CBC streaming encryption (`crypto`/`aesstream` crates) and
`bincode` serialization.  The challenge and lambda hashes consume points
through their (injective) encodings, so they are modelled directly on
points. -/
structure HashEnv (q : ℕ) where
  /-- SHA-512 over a byte stream (used by `salt` and `Record::hash`). -/
  shaBytes : Bytes → Bytes
  /-- `SHA-512(secret ‖ dhash)` reduced wide — the deterministic Schnorr
  nonce of `Signature::sign`. -/
  nonceHash : ZMod q → Bytes → ZMod q
  /-- `SHA-512(encode S ‖ encode M ‖ dhash)` reduced wide — the Schnorr
  challenge. -/
  chalHash : PublicKey q → PublicKey q → Bytes → ZMod q
  /-- `LambdaKey::new(alpha, salt) = SHA-512(encode alpha ‖ salt)`. -/
  lambdaHash : PublicKey q → Bytes → LambdaKey
  /-- `bincode::serialize` of an `RData`. -/
  serRData : RData → Bytes
  /-- `bincode::deserialize` of an `RData`. -/
  deserRData : Bytes → Option RData
  /-- `bincode::serialize` of an `REncData` (hash input in `Record::hash`). -/
  serREnc : REncData q → Bytes
  /-- AES-CBC-128 streaming encryption under a lambda key. -/
  enc : LambdaKey → Bytes → Bytes
  /-- AES-CBC-128 streaming decryption; `none` models decryptor failure. -/
  dec : LambdaKey → Bytes → Option Bytes

/-- `salt(id, table) = SHA-512(id ‖ table)` from `model/records.rs`. -/
def saltB {q : ℕ} (env : HashEnv q) (idv table : Bytes) : Bytes :=
  env.shaBytes (idv ++ table)

/-- `Signature { c, p }` from `crypto/signatures.rs`. -/
structure Signature (q : ℕ) where
  c : ZMod q
  p : ZMod q
deriving DecidableEq

/-- `Signature::sign(kp, dhash)`: deterministic nonce
`m = H(secret ‖ dhash)`, commitment `M = m·G`, challenge
`c = H(S ‖ M ‖ dhash)`, response `p = m − c·s`. -/
def Signature.sign {q : ℕ} (env : HashEnv q) (kp : KeyPair q) (dhash : Bytes) : Signature q :=
  let m := env.nonceHash kp.secret dhash
  let M := smul m (G q)
  let c := env.chalHash kp.key M dhash
  ⟨c, m - c * kp.secret⟩

/-- `Signature::verify(key, dhash)`: recompute `M = c·S + p·G` and accept
iff the recomputed challenge equals `c`. -/
def Signature.verify {q : ℕ} (env : HashEnv q) (sig : Signature q) (key : PublicKey q)
    (dhash : Bytes) : Bool :=
  let M := (smul sig.c key).add (smul sig.p (G q))
  decide (env.chalHash key M dhash = sig.c)

/-- `ExtSignature { sig, key }` from `crypto/signatures.rs`. -/
structure ExtSignature (q : ℕ) where
  sig : Signature q
  key : PublicKey q
deriving DecidableEq

/-- `ExtSignature::sign`. -/
def ExtSignature.sign {q : ℕ} (env : HashEnv q) (kp : KeyPair q) (dhash : Bytes) :
    ExtSignature q :=
  ⟨Signature.sign env kp dhash, kp.key⟩

/-- `ExtSignature::verify`. -/
def ExtSignature.verify {q : ℕ} (env : HashEnv q) (es : ExtSignature q) (dhash : Bytes) : Bool :=
  es.sig.verify env es.key dhash

/-- `REncData::new(ekey, salt, rd)`: fresh ephemeral `k` (externalized as a
parameter), `alpha = k·ekey`, `lambda = LambdaKey(alpha, salt)`, ciphertext
the AES-CBC encryption of the serialized `RData`, `kn = k·G`. -/
def REncData.new {q : ℕ} (env : HashEnv q) (k : ZMod q) (ekey : PublicKey q) (salt : Bytes)
    (rd : RData) : LambdaKey × REncData q :=
  let alpha := smul k ekey
  let lambda := env.lambdaHash alpha salt
  (lambda, ⟨smul k (G q), env.enc lambda (env.serRData rd)⟩)

/-- `REncData::data(lambda)`: decrypt then deserialize, propagating either
failure. -/
def REncData.data {q : ℕ} (env : HashEnv q) (red : REncData q) (lambda : LambdaKey) :
    Except Err RData :=
  match env.dec lambda red.ciphertext with
  | none => .error .decryptFailed
  | some pt =>
    match env.deserRData pt with
    | none => .error .deserializeFailed
    | some rd => .ok rd

/-- `Record { hprev, data, sig }` from `model/records.rs`. -/
structure Record (q : ℕ) where
  hprev : Bytes
  data : REncData q
  sig : ExtSignature q
deriving DecidableEq

/-- `Record::hash(hprev, red) = SHA-512(hprev ‖ serialize(red))`. -/
def Record.hash {q : ℕ} (env : HashEnv q) (hprev : Bytes) (red : REncData q) : Bytes :=
  env.shaBytes (hprev ++ env.serREnc red)

/-- `Record::create(keyp, ekey, hprev, salt, rd)`. -/
def Record.create {q : ℕ} (env : HashEnv q) (keyp : KeyPair q) (ekey : PublicKey q)
    (hprev salt : Bytes) (k : ZMod q) (rd : RData) : LambdaKey × Record q :=
  let lamData := REncData.new env k ekey salt rd
  let dhash := Record.hash env hprev lamData.2
  (lamData.1, ⟨hprev, lamData.2, ExtSignature.sign env keyp dhash⟩)

/-- `Record::head(keyp, ekey, salt, rd)` — `hprev` and `salt` coincide. -/
def Record.head {q : ℕ} (env : HashEnv q) (keyp : KeyPair q) (ekey : PublicKey q)
    (salt : Bytes) (k : ZMod q) (rd : RData) : LambdaKey × Record q :=
  Record.create env keyp ekey salt salt k rd

/-- `Record::tail(keyp, ekey, hprev, salt, rd)`. -/
def Record.tail {q : ℕ} (env : HashEnv q) (keyp : KeyPair q) (ekey : PublicKey q)
    (hprev salt : Bytes) (k : ZMod q) (rd : RData) : LambdaKey × Record q :=
  Record.create env keyp ekey hprev salt k rd

/-- `Record::check`: recompute the digest and verify the signature. -/
def Record.check {q : ℕ} (env : HashEnv q) (r : Record q) : Except Err Bytes :=
  let dhash := Record.hash env r.hprev r.data
  if r.sig.verify env dhash then .ok dhash else .error .invalidSignature

/-- `Record::data(lambda)` (the payload accessor; the Rust method shares its
name with the private field). -/
def Record.rdata {q : ℕ} (env : HashEnv q) (r : Record q) (lambda : LambdaKey) :
    Except Err RData :=
  r.data.data env lambda

end Fdc

namespace Fdc.Client

open Fdc

/-- The record type consumed by `fdc-client-api/src/lib.rs` (`Rn` in that
source).  Its declaration is not among the shipped sources; the shape is
dictated by how the client code uses it — `head.id.is_none()`,
`tail.hprev.as_ref()`, `rn.data.data(..)` — with the payload semantics of
the spec's Record (§3): an optional subject id (present on heads), an
optional previous-record hash (present on tails, and equal to
`salt(id,table)` on heads as written by `Record::head`), the encrypted
payload and the extended signature. -/
structure Rn (q : ℕ) where
  id : Option Bytes
  hprev : Option Bytes
  data : REncData q
  sig : ExtSignature q
deriving DecidableEq

/-- `check` on a client record: the digest of (`hprev` ‖ serialized data) as
in `Record::check`; a record without `hprev` (absent from the spec's record,
which stores `hprev` directly) hashes the empty byte string. -/
def Rn.check {q : ℕ} (env : HashEnv q) (rn : Rn q) : Except Err Bytes :=
  let dhash := Record.hash env (rn.hprev.getD []) rn.data
  if rn.sig.verify env dhash then .ok dhash else .error .invalidSignature

/-- `RecordChain` state from `fdc-client-api/src/lib.rs`.  The source struct
also declares `id`/`table` fields, but its constructor never sets them (the
struct literal in `new` omits them); the model therefore carries them as
arguments of `recover`, mirroring `self.id()` / `self.set()`. -/
structure RecordChain (q : ℕ) where
  lhash : Bytes
  chain : List (Rn q)
deriving DecidableEq

/-- `RecordChain::kn` — the `kn` of the last record (the source `unwrap`s;
the empty-chain panic is modelled by a default). -/
def RecordChain.kn {q : ℕ} (c : RecordChain q) : PublicKey q :=
  ((c.chain.getLastD ⟨none, none, ⟨⟨0⟩, []⟩, ⟨⟨0, 0⟩, ⟨0⟩⟩⟩).data).kn

/-- `RecordChain::new(head)`: check the signature, then require the record
to be a head (`head.id.is_none()` is an error). -/
def RecordChain.new {q : ℕ} (env : HashEnv q) (head : Rn q) : Except Err (RecordChain q) := do
  let lhash ← head.check env
  match head.id with
  | none => .error .notHeadRecord
  | some _ => .ok ⟨lhash, [head]⟩

/-- `RecordChain::push(tail)`: check the signature, require a present
`hprev` equal to `lhash`, then advance `lhash` and append. -/
def RecordChain.push {q : ℕ} (env : HashEnv q) (c : RecordChain q) (tail : Rn q) :
    Except Err (RecordChain q) := do
  let dhash ← tail.check env
  match tail.hprev with
  | none => .error .notTailRecord
  | some h => if c.lhash = h then .ok ⟨dhash, c.chain ++ [tail]⟩ else .error .brokenChain

/-- The loop body of `RecordChain::recover`: walk the (already reversed)
chain, decrypting each record with the current lambda and replacing it by
the decrypted `lprev`; returns the collected `dref`s in traversal order
together with the final lambda state.  The `unwrap` of an absent lambda is
the `missingLambda` error. -/
def recoverLoop {q : ℕ} (env : HashEnv q) :
    Option LambdaKey → List (Rn q) → Except Err (List RDataRef × Option LambdaKey)
  | lam?, [] => .ok ([], lam?)
  | lam?, rn :: rest =>
    match lam? with
    | none => .error .missingLambda
    | some lam =>
      match rn.data.data env lam with
      | .error e => .error e
      | .ok rd =>
        match recoverLoop env rd.lprev rest with
        | .error e => .error e
        | .ok (acc, lamEnd) => .ok (rd.dref :: acc, lamEnd)

/-- `RecordChain::recover(alpha)`: seed the lambda from
`LambdaKey::new(alpha, id, set)` — the three-argument `LambdaKey::new` shape
is absent from the shipped `keys.rs`; per the spec (§9, §4.F) it is
`LambdaKey(alpha, salt(id, table))` — then walk the chain tail-to-head and
reverse the collected file references into head-first order. -/
def RecordChain.recover {q : ℕ} (env : HashEnv q) (idv set : Bytes) (c : RecordChain q)
    (alpha : PublicKey q) : Except Err (List RDataRef) :=
  let lam0 := env.lambdaHash alpha (saltB env idv set)
  match recoverLoop env (some lam0) c.chain.reverse with
  | .error e => .error e
  | .ok (acc, _) => .ok acc.reverse

/-- Modelled from the spec: the writer that produces the tail records of a
chain (`Record::tail`'s callers are not among the shipped sources).  Spec
§4.E: each record encrypts `RData { lprev = Some(previous lambda), dref }`
under a fresh ephemeral `k` (externalized in `entries`), with `hprev` the
previous record's digest.  The tail's salt is `saltOf hprev`: the spec's
salting (§4.D, glossary) is `saltOf = id` (the previous record's hash, i.e.
the record's own `hprev`); the salting under which the implemented
single-alpha `recover` is correct is the constant `salt(id, table)`. -/
def writeTails {q : ℕ} (env : HashEnv q) (skp : KeyPair q) (ekey : PublicKey q)
    (saltOf : Bytes → Bytes) :
    Bytes → LambdaKey → List (ZMod q × RDataRef) → List (LambdaKey × Rn q)
  | _, _, [] => []
  | hprev, lamPrev, (k, dref) :: rest =>
    let rd : RData := ⟨some lamPrev, dref⟩
    let lamRed := REncData.new env k ekey (saltOf hprev) rd
    let dhash := Record.hash env hprev lamRed.2
    let rn : Rn q := ⟨none, some hprev, lamRed.2, ExtSignature.sign env skp dhash⟩
    (lamRed.1, rn) :: writeTails env skp ekey saltOf dhash lamRed.1 rest

/-- Modelled from the spec: the full chain writer — a head as in
`Record::head` (`hprev = salt = salt(id, table)`, `lprev = none`,
`id` present) followed by the tails. -/
def writeChain {q : ℕ} (env : HashEnv q) (skp : KeyPair q) (ekey : PublicKey q)
    (idv set : Bytes) (saltOf : Bytes → Bytes) :
    List (ZMod q × RDataRef) → List (LambdaKey × Rn q)
  | [] => []
  | (k, dref) :: rest =>
    let s0 := saltB env idv set
    let rd : RData := ⟨none, dref⟩
    let lamRed := REncData.new env k ekey s0 rd
    let dhash := Record.hash env s0 lamRed.2
    let head : Rn q := ⟨some idv, some s0, lamRed.2, ExtSignature.sign env skp dhash⟩
    (lamRed.1, head) :: writeTails env skp ekey saltOf dhash lamRed.1 rest

/-- Assemble a chain through the public constructors: `new` on the first
record, one `push` per tail. -/
def buildChain {q : ℕ} (env : HashEnv q) : List (Rn q) → Except Err (RecordChain q)
  | [] => .error .notHeadRecord
  | h :: t => do
    let c ← RecordChain.new env h
    t.foldlM (RecordChain.push env) c

/-- The digest the chain's `lhash` reaches after pushing a list of records,
starting from a given value: the digest of the last record, or the start
value for an empty list. -/
def lastDhash {q : ℕ} (env : HashEnv q) : Bytes → List (Rn q) → Bytes
  | d, [] => d
  | _, rn :: rest => lastDhash env (Record.hash env (rn.hprev.getD []) rn.data) rest

/-- The lambda of the last written record, or the seed for an empty list. -/
def lastLam {q : ℕ} : LambdaKey → List (LambdaKey × Rn q) → LambdaKey
  | d, [] => d
  | _, (lam, _) :: rest => lastLam lam rest

end Fdc.Client

namespace Fdc

/-- A small executable stand-in for SHA-512 used to instantiate witnesses:
length and byte-sum of the input (any function works — the theorems
quantify over the environment). -/
def shaC (l : Bytes) : Bytes := [l.length % 251, l.foldl (· + ·) 0 % 251]

/-- Length-prefixed byte-string framing for the concrete serializer. -/
def serBytesC (l : Bytes) : Bytes := l.length :: l

/-- Reader for `serBytesC` framing: returns the chunk and the remainder. -/
def readBytesC : Bytes → Option (Bytes × Bytes)
  | [] => none
  | n :: rest => if n ≤ rest.length then some (rest.take n, rest.drop n) else none

/-- Concrete tag for `KeySize` in the witness serializer. -/
def serKS : KeySize → ℕ
  | .S128 => 0
  | .S192 => 1
  | .S256 => 2
  | .S512 => 3

/-- Inverse of `serKS`. -/
def ksOf : ℕ → Option KeySize
  | 0 => some .S128
  | 1 => some .S192
  | 2 => some .S256
  | 3 => some .S512
  | _ => none

/-- Witness deserializer for the `RDataRef` part. -/
def deserRefC (lp : Option Bytes) : Bytes → Option RData
  | [] => none
  | t :: rest => do
    let ks ← ksOf t
    let p1 ← readBytesC rest
    let p2 ← readBytesC p1.2
    some ⟨lp, ⟨ks, p1.1, p2.1⟩⟩

/-- Witness serializer for `RData` (injective, length-prefixed). -/
def serRDataC (rd : RData) : Bytes :=
  (match rd.lprev with
   | none => [0]
   | some l => 1 :: serBytesC l) ++
  (serKS rd.dref.ksize :: (serBytesC rd.dref.dn ++ serBytesC rd.dref.hfile))

/-- Witness deserializer for `RData`, inverse of `serRDataC`. -/
def deserRDataC : Bytes → Option RData
  | 0 :: rest => deserRefC none rest
  | 1 :: rest => do
    let p1 ← readBytesC rest
    deserRefC (some p1.1) p1.2
  | _ => none

/-- Witness cipher: prepend the key, length-prefixed; decryption strips and
checks it.  Satisfies the round-trip contract, and decryption under a
different key fails. -/
def encC (key m : Bytes) : Bytes := key.length :: (key ++ m)

/-- Witness decryption, inverse of `encC` under the same key. -/
def decC (key : Bytes) : Bytes → Option Bytes
  | [] => none
  | n :: rest =>
    if n = key.length ∧ rest.take key.length = key then some (rest.drop key.length) else none

/-- The concrete executable environment used by witnesses and
counterexamples. -/
def envC (q : ℕ) : HashEnv q where
  shaBytes := shaC
  nonceHash := fun s d => s + ((d.foldl (· + ·) 0 : ℕ) : ZMod q)
  chalHash := fun S M d => S.v + M.v + ((d.foldl (· + ·) 0 : ℕ) : ZMod q)
  lambdaHash := fun P s => P.v.val :: s
  serRData := serRDataC
  deserRData := deserRDataC
  serREnc := fun red => red.kn.v.val :: serBytesC red.ciphertext
  enc := encC
  dec := decC

/-- A concrete process RNG for witnesses: `n / 8` bytes of sevens for an
`n`-bit request, as the spec prescribes for `dn`. -/
def rngC (n : ℕ) : Bytes := List.replicate (n / 8) 7

/-- A concrete well-formed signer key pair over `ZMod 11`. -/
def kpC : KeyPair 11 := ⟨2, ⟨2⟩⟩

/-- Concrete encrypted payload for the C4 counterexample. -/
def redC4 : REncData 11 := ⟨⟨3⟩, [7]⟩

/-- Digest of the C4 counterexample head (whose `hprev` is `[9, 9]`). -/
def dhC4 : Bytes := Record.hash (envC 11) [9, 9] redC4

/-- A head record with a valid signature, a present `id`, and an `hprev`
that is not `salt(id, table)` for the subject `([1], [2])`. -/
def headC4 : Client.Rn 11 := ⟨some [1], some [9, 9], redC4, ExtSignature.sign (envC 11) kpC dhC4⟩

/-- Concrete encrypted payload for the C3 counterexample. -/
def redC3 : REncData 11 := ⟨⟨4⟩, [6]⟩

/-- Digest of the C3 counterexample record (no `hprev`: hashes `[]`). -/
def dhC3 : Bytes := Record.hash (envC 11) [] redC3

/-- A record with a valid signature but no `hprev`. -/
def tC3 : Client.Rn 11 := ⟨none, none, redC3, ExtSignature.sign (envC 11) kpC dhC3⟩

/-- A concrete chain value for the C3 counterexample. -/
def cC3 : Client.RecordChain 11 := ⟨[5], []⟩

/-- A valid tail record for the C3 witness: its `hprev` is `cC3.lhash`. -/
def tW3 : Client.Rn 11 :=
  ⟨none, some [5], redC3, ExtSignature.sign (envC 11) kpC (Record.hash (envC 11) [5] redC3)⟩

/-- A valid head record for the C4 witness. -/
def hW4 : Client.Rn 11 := ⟨some [3], some [4], redC4,
  ExtSignature.sign (envC 11) kpC (Record.hash (envC 11) [4] redC4)⟩

/-- Payload entries (ephemeral scalar, file reference) for the C1
counterexample: a two-record chain. -/
def entriesC1 : List (ZMod 11 × RDataRef) :=
  [(4, ⟨.S128, [5], [6]⟩), (5, ⟨.S192, [7], [8]⟩)]

/-- The C1 counterexample chain, written with the spec's salting for tails
(`salt_k` = the record's own `hprev`, i.e. the previous record's hash:
`saltOf = fun h => h`), signer `kpC`, master secret `e = 3`. -/
def outC1 : List (LambdaKey × Client.Rn 11) :=
  Client.writeChain (envC 11) kpC (smul 3 (G 11)) [1] [2] (fun h => h) entriesC1

/-- The records of the C1 counterexample chain. -/
def rnsC1 : List (Client.Rn 11) := outC1.map Prod.snd

/-- The `lhash` the C1 counterexample chain reaches. -/
def lhC1 : Bytes := Client.lastDhash (envC 11) [] rnsC1

/-- The C1 counterexample chain value. -/
def chainC1 : Client.RecordChain 11 := ⟨lhC1, rnsC1⟩

end Fdc

deriving instance DecidableEq for Except

/-- Alias for Mathlib's polynomial type, usable inside the `Fdc` namespace
where `Polynomial` denotes the source's share polynomial. -/
abbrev MPoly (R : Type) [Semiring R] : Type := Polynomial R

namespace Fdc

/-- The witness cipher satisfies the AES-CBC round-trip contract of §4.D. -/
theorem envC_dec (q : ℕ) : ∀ lam m, (envC q).dec lam ((envC q).enc lam m) = some m := by
  intro lam m
  simp [envC, encC, decC, List.take_left, List.drop_left]

/-- The witness serializer satisfies the `bincode` round-trip contract. -/
theorem envC_deser (q : ℕ) : ∀ rd, (envC q).deserRData ((envC q).serRData rd) = some rd := by
  rintro ⟨lp, ⟨ks, dn, hf⟩⟩
  cases lp <;> cases ks <;>
    simp [envC, serRDataC, deserRDataC, deserRefC, serBytesC, readBytesC, serKS, ksOf,
      List.take_left, List.drop_left]

/-- Schnorr correctness, the working lemma: the verification equation
`c·S + p·G` reproduces the nonce commitment whenever the key pair is
well-formed, so the recomputed challenge matches. -/
theorem sign_verify_eq (q : ℕ) (env : HashEnv q) (kp : KeyPair q) (dhash : Bytes)
    (hk : kp.key = smul kp.secret (G q)) :
    Signature.verify env (Signature.sign env kp dhash) kp.key dhash = true := by
  obtain ⟨s, key⟩ := kp
  simp only [KeyPair.key] at hk
  subst hk
  have hM : (smul (env.chalHash (smul s (G q)) (smul (env.nonceHash s dhash) (G q)) dhash)
        (smul s (G q))).add
        (smul (env.nonceHash s dhash -
          env.chalHash (smul s (G q)) (smul (env.nonceHash s dhash) (G q)) dhash * s) (G q))
      = smul (env.nonceHash s dhash) (G q) := by
    simp only [smul, PublicKey.add, G, PublicKey.mk.injEq]
    ring
  simp [Signature.verify, Signature.sign, hM]

/-- C5: for every key pair `kp` and every message digest `dhash`, verifying
the signature produced by `Signature::sign(kp, dhash)` against `kp.key` and
the same `dhash` returns true — the Schnorr verification equation
`M' = c·S + p·G` reproduces the nonce commitment, so the recomputed
challenge equals `c`. -/
theorem claim_C5 (q : ℕ) (env : HashEnv q) (kp : KeyPair q) (dhash : Bytes)
    (hk : kp.key = smul kp.secret (G q)) :
    Signature.verify env (Signature.sign env kp dhash) kp.key dhash = true :=
  sign_verify_eq q env kp dhash hk

/-- Witness for C5 at a concrete key pair and digest over `ZMod 11`. -/
theorem claim_C5_witness :
    Signature.verify (envC 11) (Signature.sign (envC 11) ⟨2, ⟨2⟩⟩ [3]) (⟨2⟩ : PublicKey 11) [3]
      = true :=
  claim_C5 11 (envC 11) ⟨2, ⟨2⟩⟩ [3] (by decide)

/-- C8: `RData::head` (and `RData::tail`) store the hard-coded
`KeySize::S128` in `dref.ksize` regardless of the `ksize` argument — here
evaluated at the failing input `ksize = S256`; the remaining parts of the
claim hold: `dn` is the fresh draw of `ksize/8` bytes (32 for `S256`), and
`lprev` is `none` for a head and `Some lprev` for a tail. -/
theorem claim_C8 :
    (RData.head rngC KeySize.S256 [9]).dref.ksize = KeySize.S128
    ∧ KeySize.S128 ≠ KeySize.S256
    ∧ (RData.head rngC KeySize.S256 [9]).dref.dn.length = 32
    ∧ (RData.head rngC KeySize.S256 [9]).lprev = none
    ∧ (RData.tail rngC KeySize.S256 [3] [9]).dref.ksize = KeySize.S128
    ∧ (RData.tail rngC KeySize.S256 [3] [9]).lprev = some [3] := by
  decide

/-- C9 as amended: `KeyPair::rand` establishes the invariant
`key = secret·G`; `KeyPair::load` merely decodes the two halves and returns
them unchecked, so it satisfies the invariant only when its arguments
already encode such a pair. -/
theorem claim_C9 (q : ℕ) (s : ZMod q) (sb kb : Bytes) (sd : ZMod q) (kd : PublicKey q)
    (hs : SecretKey.decode q sb = some sd) (hkd : PublicKey.decode q kb = some kd) :
    (KeyPair.rand q s).key = smul (KeyPair.rand q s).secret (G q)
    ∧ KeyPair.load q sb kb = some ⟨sd, kd⟩ := by
  refine ⟨rfl, ?_⟩
  simp [KeyPair.load, hs, hkd]

/-- Counterexample to C9 as stated: `KeyPair::load` accepts the canonical
encodings of the scalar 1 and the point `2·G` and returns the pair without
any consistency check, although `key ≠ secret·G` for it. -/
theorem claim_C9_counter :
    KeyPair.load 11 (bytesLE 32 1) (bytesLE 32 2) = some ⟨1, ⟨2⟩⟩
    ∧ (⟨2⟩ : PublicKey 11) ≠ smul (1 : ZMod 11) (G 11) := by
  decide

/-- Witness for C9 at concrete encodings over `ZMod 11`. -/
theorem claim_C9_witness :
    (KeyPair.rand 11 3).key = smul (KeyPair.rand 11 3).secret (G 11)
    ∧ KeyPair.load 11 (bytesLE 32 4) (bytesLE 32 5) = some ⟨4, ⟨5⟩⟩ :=
  claim_C9 11 3 (bytesLE 32 4) (bytesLE 32 5) 4 ⟨5⟩ (by decide) (by decide)

/-- C10: the reversed-order mixed-type additions generated by the
`Commutative` arm of `add_variants!` subtract instead of adding:
`s + sh = Share { i: sh.i, yi: sh.yi − s }` and likewise
`P + psh = PublicShare { i: psh.i, Yi: psh.Yi − P }`; consequently they
agree with the direct additions exactly on zero, so the mixed addition is
not commutative. -/
theorem claim_C10 (q : ℕ) [Fact q.Prime] (hq2 : q ≠ 2) (s : ZMod q) (sh : Share q)
    (P : PublicKey q) (psh : PublicShare q) :
    addSecretShare s sh = ⟨sh.i, sh.yi - s⟩
    ∧ (addSecretShare s sh = Share.addS sh s ↔ s = 0)
    ∧ addKeyPublicShare P psh = ⟨psh.i, psh.Yi.sub P⟩
    ∧ (addKeyPublicShare P psh = PublicShare.addP psh P ↔ P.v = 0) := by
  have hp : q.Prime := Fact.out
  haveI : NeZero q := ⟨hp.ne_zero⟩
  have h2 : (2 : ZMod q) ≠ 0 := by
    intro h
    rw [show ((2 : ZMod q)) = ((2 : ℕ) : ZMod q) by push_cast; ring,
      ZMod.natCast_zmod_eq_zero_iff_dvd] at h
    exact hq2 ((Nat.prime_dvd_prime_iff_eq hp Nat.prime_two).mp h)
  have key : ∀ a b : ZMod q, a - b = a + b ↔ b = 0 := by
    intro a b
    constructor
    · intro h
      have hbb : b + b = 0 := by linear_combination -h
      have h2b : (2 : ZMod q) * b = 0 := by rw [two_mul]; exact hbb
      rcases mul_eq_zero.mp h2b with h' | h'
      · exact absurd h' h2
      · exact h'
    · intro h; subst h; simp
  refine ⟨rfl, ?_, rfl, ?_⟩
  · rw [show addSecretShare s sh = ⟨sh.i, sh.yi - s⟩ from rfl]
    simp [Share.addS, Share.mk.injEq, key]
  · rw [show addKeyPublicShare P psh = ⟨psh.i, psh.Yi.sub P⟩ from rfl]
    simp [PublicShare.addP, PublicKey.add, PublicKey.sub, PublicShare.mk.injEq,
      PublicKey.mk.injEq, key]

/-- Witness for C10 at concrete values over `ZMod 11`. -/
theorem claim_C10_witness :
    addSecretShare (3 : ZMod 11) ⟨1, 4⟩ = ⟨1, 4 - 3⟩
    ∧ (addSecretShare (3 : ZMod 11) ⟨1, 4⟩ = Share.addS ⟨1, 4⟩ 3 ↔ (3 : ZMod 11) = 0)
    ∧ addKeyPublicShare (⟨2⟩ : PublicKey 11) ⟨1, ⟨5⟩⟩ = ⟨1, PublicKey.sub ⟨5⟩ ⟨2⟩⟩
    ∧ (addKeyPublicShare (⟨2⟩ : PublicKey 11) ⟨1, ⟨5⟩⟩ = PublicShare.addP ⟨1, ⟨5⟩⟩ ⟨2⟩ ↔
        (⟨2⟩ : PublicKey 11).v = 0) := by
  haveI : Fact (Nat.Prime 11) := ⟨by norm_num⟩
  exact claim_C10 11 (by decide) 3 ⟨1, 4⟩ ⟨2⟩ ⟨1, ⟨5⟩⟩

/-- Horner folding commutes with the scalar-to-point projection of the
coefficient list (seed generalized). -/
theorem hornerP_fold (q : ℕ) (P : PublicKey q) (x : ZMod q) :
    ∀ (t : List (ZMod q)) (h : ZMod q),
      (t.map fun ak => smul ak P).foldl (fun acc coef => (smul x acc).add coef) (smul h P)
        = smul (t.foldl (fun acc coef => acc * x + coef) h) P := by
  intro t
  induction t with
  | nil => intro h; rfl
  | cons c t ih =>
    intro h
    simp only [List.map_cons, List.foldl_cons]
    have hstep : (smul x (smul h P)).add (smul c P) = smul (h * x + c) P := by
      simp only [smul, PublicKey.add, PublicKey.mk.injEq]
      ring
    rw [hstep, ih]

/-- Projecting the coefficients through a point commutes with Horner
evaluation. -/
theorem hornerEvalP_map (q : ℕ) (l : List (ZMod q)) (P : PublicKey q) (x : ZMod q) :
    hornerEvalP (l.map fun ak => smul ak P) x = smul (hornerEval l x) P := by
  unfold hornerEvalP hornerEval
  rw [← List.map_reverse]
  cases l.reverse with
  | nil =>
    simp only [List.map_nil]
    simp [smul, PublicKey.mk.injEq]
  | cons h t =>
    simp only [List.map_cons]
    exact hornerP_fold q P x t h

/-- C7: `PublicPolynomial::verify(share)` returns true iff `share.Yi`
equals the public polynomial evaluated at `from(share.i)`; and for every
share of a polynomial, the projected public polynomial verifies the
projected share — scalar-to-point projection commutes with Horner
evaluation.  The bound `n < 2^32` reflects the `u32` share index. -/
theorem claim_C7 (q : ℕ) (pp : PublicPolynomial q) (sh0 : PublicShare q)
    (p : Fdc.Polynomial q) (hp : p.a ≠ []) (P : PublicKey q) (n : ℕ) (h32 : n < 2 ^ 32)
    (sh : Share q) (hsh : sh ∈ p.shares n) :
    (pp.verify sh0 = true ↔ sh0.Yi = pp.evaluate ((sh0.i : ℕ) : ZMod q))
    ∧ (p.mulP P).verify (sh.mulP P) = true := by
  constructor
  · simp [PublicPolynomial.verify]
  · simp only [Polynomial.shares, List.mem_map, List.mem_range] at hsh
    obtain ⟨j, hj, rfl⟩ := hsh
    have hmod : (j + 1) % 2 ^ 32 = j + 1 :=
      Nat.mod_eq_of_lt (Nat.lt_of_le_of_lt (Nat.succ_le_of_lt hj) h32)
    simp only [PublicPolynomial.verify, Share.mulP, Polynomial.mulP, PublicPolynomial.evaluate,
      Polynomial.evaluate, hmod]
    rw [hornerEvalP_map]
    simp

/-- Witness for C7 at a concrete polynomial, point, and share. -/
theorem claim_C7_witness :
    ((⟨[⟨1⟩]⟩ : PublicPolynomial 11).verify ⟨0, ⟨1⟩⟩ = true ↔
        (⟨0, ⟨1⟩⟩ : PublicShare 11).Yi =
          PublicPolynomial.evaluate ⟨[⟨1⟩]⟩ (((0 : ℕ) : ℕ) : ZMod 11))
    ∧ (Fdc.Polynomial.mulP (⟨[1, 2]⟩ : Fdc.Polynomial 11) ⟨3⟩).verify
        (Share.mulP (⟨1, 3⟩ : Share 11) ⟨3⟩) = true :=
  claim_C7 11 ⟨[⟨1⟩]⟩ ⟨0, ⟨1⟩⟩ ⟨[1, 2]⟩ (by decide) ⟨3⟩ 2 (by decide) ⟨1, 3⟩ (by decide)

/-- C2: writing a head record under the master public key `E = e·G` and
decrypting it with the trapdoor-derived lambda
`LambdaKey(e·kn, salt)` returns exactly the original payload — decryption
under the trapdoor inverts the write-time encryption. -/
theorem claim_C2 (q : ℕ) (env : HashEnv q)
    (hdec : ∀ lam m, env.dec lam (env.enc lam m) = some m)
    (hser : ∀ rd, env.deserRData (env.serRData rd) = some rd)
    (e : ZMod q) (skp : KeyPair q) (s0 : Bytes) (rd1 : RData) (hrd : rd1.lprev = none)
    (k : ZMod q) :
    Record.rdata env (Record.head env skp (smul e (G q)) s0 k rd1).2
      (env.lambdaHash (smul e (Record.head env skp (smul e (G q)) s0 k rd1).2.data.kn) s0)
      = .ok rd1 := by
  have hpt : smul e (smul k (G q)) = smul k (smul e (G q)) := by
    simp only [smul, PublicKey.mk.injEq]
    ring
  simp [Record.head, Record.create, Record.rdata, REncData.new, REncData.data, hpt, hdec, hser]

/-- Witness for C2 at a concrete head record over `ZMod 11`. -/
theorem claim_C2_witness :
    Record.rdata (envC 11) (Record.head (envC 11) ⟨3, ⟨3⟩⟩ (smul 2 (G 11)) [5] 3
        ⟨none, ⟨KeySize.S128, [1], [2]⟩⟩).2
      ((envC 11).lambdaHash (smul 2 (Record.head (envC 11) ⟨3, ⟨3⟩⟩ (smul 2 (G 11)) [5] 3
        ⟨none, ⟨KeySize.S128, [1], [2]⟩⟩).2.data.kn) [5])
      = .ok ⟨none, ⟨KeySize.S128, [1], [2]⟩⟩ :=
  claim_C2 11 (envC 11) (envC_dec 11) (envC_deser 11) 2 ⟨3, ⟨3⟩⟩ [5]
    ⟨none, ⟨KeySize.S128, [1], [2]⟩⟩ rfl 3

/-- C3 as amended: `push(tail)` surfaces `InvalidSignature` when the
signature check fails; with a valid signature it fails with
`NotTailRecord` when the record carries no `hprev` (the client record's
`hprev` is optional — a case the claim does not mention), fails with
`BrokenChain` when the present `hprev` differs from `lhash`, and otherwise
advances `lhash` to the record's digest and appends the record.  Failures
return before any state is produced, so the chain value is untouched. -/
theorem claim_C3 (q : ℕ) (env : HashEnv q) (c : Client.RecordChain q) (t : Client.Rn q) :
    (t.sig.verify env (Record.hash env (t.hprev.getD []) t.data) = false →
      Client.RecordChain.push env c t = .error .invalidSignature)
    ∧ (t.sig.verify env (Record.hash env (t.hprev.getD []) t.data) = true →
        (t.hprev = none → Client.RecordChain.push env c t = .error .notTailRecord)
        ∧ ∀ h, t.hprev = some h →
            (h ≠ c.lhash → Client.RecordChain.push env c t = .error .brokenChain)
            ∧ (h = c.lhash → Client.RecordChain.push env c t =
                .ok ⟨Record.hash env h t.data, c.chain ++ [t]⟩)) := by
  refine ⟨fun hv => ?_, fun hv => ⟨fun hnp => ?_, fun h hp => ⟨fun hne => ?_, fun heq => ?_⟩⟩⟩
  · simp [Client.RecordChain.push, Client.Rn.check, hv, Bind.bind, Except.bind]
  · rw [hnp] at hv
    simp only [Option.getD_none] at hv
    simp [Client.RecordChain.push, Client.Rn.check, hv, hnp, Bind.bind, Except.bind]
  · rw [hp] at hv
    simp only [Option.getD_some] at hv
    simp [Client.RecordChain.push, Client.Rn.check, hv, hp, Bind.bind, Except.bind,
      (Ne.symm hne : c.lhash ≠ h)]
  · subst heq
    rw [hp] at hv
    simp only [Option.getD_some] at hv
    simp [Client.RecordChain.push, Client.Rn.check, hv, hp, Bind.bind, Except.bind]

/-- Counterexample to C3 as stated: a record with a valid signature and no
`hprev` has an `hprev` differing from `lhash`, yet `push` rejects it with
`NotTailRecord`, not `BrokenChain`. -/
theorem claim_C3_counter :
    Client.Rn.check (envC 11) tC3 = .ok dhC3
    ∧ tC3.hprev ≠ some cC3.lhash
    ∧ Client.RecordChain.push (envC 11) cC3 tC3 = .error .notTailRecord
    ∧ Err.notTailRecord ≠ Err.brokenChain := by
  decide

/-- Witness for C3 at a concrete chain and matching tail over `ZMod 11`. -/
theorem claim_C3_witness :
    Client.RecordChain.push (envC 11) cC3 tW3 =
      .ok ⟨Record.hash (envC 11) [5] tW3.data, cC3.chain ++ [tW3]⟩ :=
  (((claim_C3 11 (envC 11) cC3 tW3).2 (by decide)).2 [5] rfl).2 rfl

/-- C4 as amended: `RecordChain::new(head)` first verifies the signature,
surfacing `InvalidSignature`; it then fails with `NotHeadRecord` iff the
record carries no `id` — it never compares `hprev` with `salt(id, table)`
and takes no `id`/`table` arguments at all; on success the chain is exactly
`[head]` with `lhash` the digest from `check`. -/
theorem claim_C4 (q : ℕ) (env : HashEnv q) (head : Client.Rn q) :
    (head.sig.verify env (Record.hash env (head.hprev.getD []) head.data) = false →
      Client.RecordChain.new env head = .error .invalidSignature)
    ∧ (head.sig.verify env (Record.hash env (head.hprev.getD []) head.data) = true →
        (head.id = none → Client.RecordChain.new env head = .error .notHeadRecord)
        ∧ ∀ i0, head.id = some i0 →
            Client.RecordChain.new env head =
              .ok ⟨Record.hash env (head.hprev.getD []) head.data, [head]⟩) := by
  refine ⟨fun hv => ?_, fun hv => ⟨fun hni => ?_, fun i0 hi => ?_⟩⟩
  · simp [Client.RecordChain.new, Client.Rn.check, hv, Bind.bind, Except.bind]
  · simp [Client.RecordChain.new, Client.Rn.check, hv, hni, Bind.bind, Except.bind]
  · simp [Client.RecordChain.new, Client.Rn.check, hv, hi, Bind.bind, Except.bind]

/-- Counterexample to C4 as stated: a head whose `hprev` is not
`salt(id, table)` for its subject is accepted by `new` — the source checks
only that `id` is present. -/
theorem claim_C4_counter :
    Client.RecordChain.new (envC 11) headC4 = .ok ⟨dhC4, [headC4]⟩
    ∧ headC4.hprev ≠ some (saltB (envC 11) [1] [2]) := by
  decide

/-- Witness for C4 at a concrete valid head over `ZMod 11`. -/
theorem claim_C4_witness :
    Client.RecordChain.new (envC 11) hW4 =
      .ok ⟨Record.hash (envC 11) [4] hW4.data, [hW4]⟩ :=
  ((claim_C4 11 (envC 11) hW4).2 (by decide)).2 [3] rfl

/-- An additive fold over `List.range` is the starting value plus the
`Finset.range` sum. -/
theorem foldl_add_range (q : ℕ) (g : ℕ → ZMod q) :
    ∀ (m : ℕ) (a : ZMod q),
      (List.range m).foldl (fun acc j => acc + g j) a = a + ∑ j ∈ Finset.range m, g j := by
  intro m
  induction m with
  | zero => intro a; simp
  | succ m ih =>
    intro a
    rw [List.range_succ, List.foldl_append]
    simp [ih, Finset.sum_range_succ, add_assoc]

/-- The two accumulators of the `l_i` loop are the pointwise products over
the filtered range. -/
theorem foldl_li_prod (q : ℕ) (f g : ℕ → ZMod q) (i : ℕ) :
    ∀ (m : ℕ) (a b : ZMod q),
      (List.range m).foldl
        (fun acc j => if j ≠ i then (acc.1 * f j, acc.2 * g j) else acc) (a, b)
      = (a * ∏ j ∈ Finset.range m, (if j ≠ i then f j else 1),
         b * ∏ j ∈ Finset.range m, (if j ≠ i then g j else 1)) := by
  intro m
  induction m with
  | zero => intro a b; simp
  | succ m ih =>
    intro a b
    rw [List.range_succ, List.foldl_append]
    simp only [List.foldl_cons, List.foldl_nil, ih]
    by_cases hmi : m = i
    · simp [hmi, Finset.prod_range_succ]
    · simp [hmi, Finset.prod_range_succ, mul_assoc]

/-- `Polynomial::l_i` in closed form: numerator and denominator products. -/
theorem l_i_eq_prod (q : ℕ) (range : List (ZMod q)) (i : ℕ) :
    Polynomial.l_i range i
      = (∏ j ∈ Finset.range range.length, (if j ≠ i then range.getD j 0 else 1))
        * (∏ j ∈ Finset.range range.length,
            (if j ≠ i then range.getD j 0 - range.getD i 0 else 1))⁻¹ := by
  simp only [Polynomial.l_i]
  rw [foldl_li_prod q (fun j => range.getD j 0) (fun j => range.getD j 0 - range.getD i 0) i]
  simp

/-- A product of `if j ≠ i` terms over a finset is the product over the
finset with `i` erased. -/
theorem prod_ite_ne_erase (q : ℕ) (s : Finset ℕ) (i : ℕ) (f : ℕ → ZMod q) :
    (∏ j ∈ s, (if j ≠ i then f j else 1)) = ∏ j ∈ s.erase i, f j := by
  rw [← Finset.prod_erase s (by simp : (if i ≠ i then f i else 1) = 1)]
  exact Finset.prod_congr rfl fun j hj => if_pos (Finset.mem_erase.mp hj).1

/-- `hornerEval` satisfies the standard Horner recurrence. -/
theorem hornerEval_cons (q : ℕ) (c : ZMod q) (t : List (ZMod q)) (x : ZMod q) :
    hornerEval (c :: t) x = c + x * hornerEval t x := by
  unfold hornerEval
  rw [List.reverse_cons]
  cases ht : t.reverse with
  | nil => simp [ht]
  | cons h tt =>
    simp only [List.cons_append]
    show (tt ++ [c]).foldl (fun acc coef => acc * x + coef) h
        = c + x * tt.foldl (fun acc coef => acc * x + coef) h
    rw [List.foldl_append]
    simp only [List.foldl_cons, List.foldl_nil]
    ring

/-- `hornerEval` computes the monomial sum of the coefficient list. -/
theorem hornerEval_eq_sum (q : ℕ) (l : List (ZMod q)) (x : ZMod q) :
    hornerEval l x = ∑ i ∈ Finset.range l.length, l.getD i 0 * x ^ i := by
  induction l with
  | nil => simp [hornerEval]
  | cons c t ih =>
    rw [hornerEval_cons, ih, List.length_cons, Finset.sum_range_succ', Finset.mul_sum]
    rw [add_comm]
    congr 1
    · exact Finset.sum_congr rfl fun i _ => by rw [List.getD_cons_succ]; ring
    · simp

end Fdc

/-- `getD` of a mapped range list below the length. -/
theorem Fdc.getD_map_range {α : Type} (f : ℕ → α) (n j : ℕ) (hj : j < n) (d : α) :
    ((List.range n).map f).getD j d = f j := by
  rw [List.getD_eq_getElem?_getD]
  simp [List.getElem?_map, List.getElem?_range, hj]

/-- `getD` commutes with `map` below the length. -/
theorem Fdc.getD_map_lt {α β : Type} (f : α → β) (l : List α) (j : ℕ) (hj : j < l.length)
    (d : β) (d' : α) : (l.map f).getD j d = f (l.getD j d') := by
  rw [List.getD_eq_getElem?_getD, List.getD_eq_getElem?_getD, List.getElem?_map,
    List.getElem?_eq_getElem hj]
  simp

/-- Folds over the same index range agree when the step functions agree on
indices below the bound. -/
theorem Fdc.foldl_range_congr {α : Type} (m : ℕ) (f g : α → ℕ → α)
    (h : ∀ acc j, j < m → f acc j = g acc j) :
    ∀ a : α, (List.range m).foldl f a = (List.range m).foldl g a := by
  induction m with
  | zero => intro a; rfl
  | succ m ih =>
    intro a
    rw [List.range_succ, List.foldl_append, List.foldl_append]
    rw [ih (fun acc j hj => h acc j (Nat.lt_succ_of_lt hj))]
    simp [h _ m (Nat.lt_succ_self m)]

/-- A point-valued additive fold is the wrapped scalar fold. -/
theorem Fdc.foldl_PK_range (q : ℕ) (g : ℕ → ZMod q) (m : ℕ) :
    ∀ a : ZMod q, (List.range m).foldl (fun acc j => Fdc.PublicKey.add acc ⟨g j⟩) ⟨a⟩
      = ⟨(List.range m).foldl (fun acc j => acc + g j) a⟩ := by
  induction m with
  | zero => intro a; rfl
  | succ m ih =>
    intro a
    rw [List.range_succ, List.foldl_append, List.foldl_append, ih a]
    simp only [List.foldl_cons, List.foldl_nil]
    rfl

/-- The group-side Lagrange recovery of a projected share vector is the
projection of the scalar recovery. -/
theorem Fdc.psRecover_mulP (q : ℕ) (sv : List (Fdc.Share q)) (P : Fdc.PublicKey q) :
    Fdc.PublicShareVector.recover (Fdc.ShareVector.mulP sv P)
      = ⟨Fdc.ShareVector.recover sv * P.v⟩ := by
  simp only [Fdc.PublicShareVector.recover, Fdc.ShareVector.recover, Fdc.ShareVector.mulP]
  have hrange : ((sv.map fun s => s.mulP P).map fun s => ((s.i : ℕ) : ZMod q))
      = sv.map fun s => ((s.i : ℕ) : ZMod q) := by
    simp [List.map_map, Fdc.Share.mulP, Function.comp]
  rw [hrange, List.length_map]
  set xs := sv.map fun s => ((s.i : ℕ) : ZMod q) with hxs
  have hcongr := Fdc.foldl_range_congr sv.length
      (fun (acc : Fdc.PublicKey q) (j : ℕ) => Fdc.PublicKey.add acc
        (Fdc.smul (Fdc.Polynomial.l_i xs j)
          (((sv.map fun s => Fdc.Share.mulP s P).getD j
            (⟨0, ⟨0⟩⟩ : Fdc.PublicShare q)).Yi)))
      (fun (acc : Fdc.PublicKey q) (j : ℕ) => Fdc.PublicKey.add acc
        ⟨Fdc.Polynomial.l_i xs j * ((sv.getD j (⟨0, 0⟩ : Fdc.Share q)).yi * P.v)⟩)
      (fun acc j hj => by
        simp only [Fdc.getD_map_lt (fun s => Fdc.Share.mulP s P) sv j hj
          (⟨0, ⟨0⟩⟩ : Fdc.PublicShare q) ⟨0, 0⟩]
        rfl)
      (Fdc.PublicKey.zero q)
  rw [hcongr]
  have hPK := Fdc.foldl_PK_range q
      (fun j => Fdc.Polynomial.l_i xs j * ((sv.getD j ⟨0, 0⟩).yi * P.v)) sv.length 0
  rw [show (Fdc.PublicKey.zero q) = (⟨(0 : ZMod q)⟩ : Fdc.PublicKey q) from rfl, hPK]
  rw [Fdc.foldl_add_range, Fdc.foldl_add_range]
  congr 1
  simp only [zero_add, Finset.sum_mul, mul_assoc]

/-- The evaluation points `1..n` are pairwise distinct in `ZMod q` when
`n < q`. -/
theorem Fdc.v_injOn (q n : ℕ) [NeZero q] (hq : n < q) :
    Set.InjOn (fun j : ℕ => ((j + 1 : ℕ) : ZMod q)) (Finset.range n) := by
  intro a ha b hb hab
  simp only [Finset.coe_range, Set.mem_Iio] at ha hb
  have hval := congrArg ZMod.val hab
  rw [ZMod.val_cast_of_lt (by omega), ZMod.val_cast_of_lt (by omega)] at hval
  omega

/-- The closed-form `l_i` products over the erased range are the Lagrange
basis polynomial evaluated at zero. -/
theorem Fdc.l_i_eq_eval_basis (q : ℕ) [Fact q.Prime] (n i : ℕ) (v : ℕ → ZMod q) :
    (∏ j ∈ (Finset.range n).erase i, v j)
      * (∏ j ∈ (Finset.range n).erase i, (v j - v i))⁻¹
      = Polynomial.eval 0 (Lagrange.basis (Finset.range n) v i) := by
  unfold Lagrange.basis
  rw [Polynomial.eval_prod, ← Finset.prod_inv_distrib, ← Finset.prod_mul_distrib]
  refine Finset.prod_congr rfl fun j hj => ?_
  have hb : Polynomial.eval 0 (Lagrange.basisDivisor (v i) (v j))
      = (v i - v j)⁻¹ * (0 - v j) := by
    simp [Lagrange.basisDivisor]
  rw [hb, show v i - v j = -(v j - v i) by ring, inv_neg]
  ring

/-- C6: Shamir reconstruction — for a polynomial with constant term `s` and
`degree`-many further coefficients, `n ≥ degree + 1` shares recover `s` by
Lagrange interpolation at zero, and the group-side interpolation of the
projected shares recovers `s·G`.  The bounds `n < q` and `n < 2^32` are the
field-size and `u32`-index side conditions, both vacuous at the reference
parameters (`q ≈ 2^252`). -/
theorem Fdc.claim_C6 (q n : ℕ) [Fact q.Prime] (s : ZMod q) (coefs : List (ZMod q))
    (ht : coefs.length + 1 ≤ n) (hq : n < q) (h32 : n < 2 ^ 32) :
    Fdc.ShareVector.recover (Fdc.Polynomial.shares (Fdc.Polynomial.rand q s coefs) n) = s
    ∧ Fdc.PublicShareVector.recover
        (Fdc.ShareVector.mulP (Fdc.Polynomial.shares (Fdc.Polynomial.rand q s coefs) n)
          (Fdc.G q))
      = Fdc.smul s (Fdc.G q) := by
  haveI : NeZero q := ⟨(Fact.out : q.Prime).ne_zero⟩
  have hrec : Fdc.ShareVector.recover
      (Fdc.Polynomial.shares (Fdc.Polynomial.rand q s coefs) n) = s := by
    have hshares : Fdc.Polynomial.shares (Fdc.Polynomial.rand q s coefs) n
        = (List.range n).map
            (fun j0 => (⟨(j0 + 1) % 2 ^ 32,
              Fdc.hornerEval (s :: coefs) ((j0 + 1 : ℕ) : ZMod q)⟩ : Fdc.Share q)) := rfl
    have hmod : ∀ j, j < n → (j + 1) % 2 ^ 32 = j + 1 := fun j hj =>
      Nat.mod_eq_of_lt (lt_of_le_of_lt (Nat.succ_le_of_lt hj) h32)
    -- the interpolated polynomial
    set f : MPoly (ZMod q) :=
      ∑ i ∈ Finset.range (s :: coefs).length,
        Polynomial.C ((s :: coefs).getD i 0) * Polynomial.X ^ i with hfdef
    have hfeval : ∀ x : ZMod q, Fdc.hornerEval (s :: coefs) x = Polynomial.eval x f := by
      intro x
      rw [Fdc.hornerEval_eq_sum, hfdef, Polynomial.eval_finset_sum]
      exact Finset.sum_congr rfl fun i _ => by simp
    have hvs : Set.InjOn (fun j : ℕ => ((j + 1 : ℕ) : ZMod q)) (Finset.range n) :=
      Fdc.v_injOn q n hq
    have hdeg : f.degree < ((Finset.range n).card : WithBot ℕ) := by
      rw [Finset.card_range, hfdef]
      refine lt_of_le_of_lt (Polynomial.degree_sum_le _ _) ?_
      refine (Finset.sup_lt_iff (by exact_mod_cast WithBot.bot_lt_coe n)).mpr ?_
      intro i hi
      refine lt_of_le_of_lt (Polynomial.degree_C_mul_X_pow_le i _) ?_
      exact_mod_cast lt_of_lt_of_le (Finset.mem_range.mp hi) (by simpa using ht)
    have hinterp := Lagrange.eq_interpolate hvs hdeg
    have hf0 : Polynomial.eval 0 f = s := by
      rw [← hfeval 0, Fdc.hornerEval_cons]
      simp
    -- unfold the executable recovery into the interpolation sum
    have hxsmap : List.map (fun sh : Fdc.Share q => ((sh.i : ℕ) : ZMod q))
        ((List.range n).map (fun j0 => (⟨(j0 + 1) % 2 ^ 32,
          Fdc.hornerEval (s :: coefs) ((j0 + 1 : ℕ) : ZMod q)⟩ : Fdc.Share q)))
        = (List.range n).map fun j0 => (((j0 + 1) % 2 ^ 32 : ℕ) : ZMod q) := by
      rw [List.map_map]
      rfl
    simp only [Fdc.ShareVector.recover]
    rw [hshares, hxsmap]
    simp only [List.length_map, List.length_range]
    rw [Fdc.foldl_add_range, zero_add]
    have hterm : ∀ j ∈ Finset.range n,
        Fdc.Polynomial.l_i
            ((List.range n).map fun j0 => (((j0 + 1) % 2 ^ 32 : ℕ) : ZMod q)) j
          * (((List.range n).map
              (fun j0 => (⟨(j0 + 1) % 2 ^ 32,
                Fdc.hornerEval (s :: coefs) ((j0 + 1 : ℕ) : ZMod q)⟩ : Fdc.Share q))).getD j
              ⟨0, 0⟩).yi
        = Polynomial.eval ((j + 1 : ℕ) : ZMod q) f
            * Polynomial.eval 0
              (Lagrange.basis (Finset.range n) (fun j0 : ℕ => ((j0 + 1 : ℕ) : ZMod q)) j) := by
      intro j hj
      have hjn := Finset.mem_range.mp hj
      rw [Fdc.getD_map_range _ n j hjn]
      rw [Fdc.l_i_eq_prod, List.length_map, List.length_range,
        Fdc.prod_ite_ne_erase, Fdc.prod_ite_ne_erase]
      have hx : ∀ j0 ∈ (Finset.range n).erase j,
          ((List.range n).map fun j1 => (((j1 + 1) % 2 ^ 32 : ℕ) : ZMod q)).getD j0 0
            = ((j0 + 1 : ℕ) : ZMod q) := by
        intro j0 hj0
        have hj0n := Finset.mem_range.mp (Finset.mem_of_mem_erase hj0)
        rw [Fdc.getD_map_range _ n j0 hj0n, hmod j0 hj0n]
      have hxc : ((List.range n).map fun j1 => (((j1 + 1) % 2 ^ 32 : ℕ) : ZMod q)).getD j 0
          = ((j + 1 : ℕ) : ZMod q) := by
        rw [Fdc.getD_map_range _ n j hjn, hmod j hjn]
      have hp1 : (∏ j0 ∈ (Finset.range n).erase j,
            ((List.range n).map fun j1 => (((j1 + 1) % 2 ^ 32 : ℕ) : ZMod q)).getD j0 0)
          = ∏ j0 ∈ (Finset.range n).erase j, ((j0 + 1 : ℕ) : ZMod q) :=
        Finset.prod_congr rfl hx
      have hp2 : (∏ j0 ∈ (Finset.range n).erase j,
            (((List.range n).map fun j1 => (((j1 + 1) % 2 ^ 32 : ℕ) : ZMod q)).getD j0 0
              - ((List.range n).map fun j1 => (((j1 + 1) % 2 ^ 32 : ℕ) : ZMod q)).getD j 0))
          = ∏ j0 ∈ (Finset.range n).erase j,
              (((j0 + 1 : ℕ) : ZMod q) - ((j + 1 : ℕ) : ZMod q)) :=
        Finset.prod_congr rfl (fun j0 hj0 => by rw [hx j0 hj0, hxc])
      rw [hp1, hp2, hfeval]
      rw [← Fdc.l_i_eq_eval_basis q n j (fun j0 : ℕ => ((j0 + 1 : ℕ) : ZMod q))]
      ring
    rw [Finset.sum_congr rfl hterm]
    have hlag : ∑ j ∈ Finset.range n,
        Polynomial.eval ((j + 1 : ℕ) : ZMod q) f
          * Polynomial.eval 0
            (Lagrange.basis (Finset.range n) (fun j0 : ℕ => ((j0 + 1 : ℕ) : ZMod q)) j)
        = Polynomial.eval 0 f := by
      conv_rhs => rw [hinterp]
      rw [Lagrange.interpolate_apply, Polynomial.eval_finset_sum]
      exact Finset.sum_congr rfl fun i _ => by simp
    rw [hlag, hf0]
  refine ⟨hrec, ?_⟩
  rw [Fdc.psRecover_mulP, hrec]
  rfl

/-- Witness for C6: a degree-1 polynomial over `ZMod 7` with secret 3,
reconstructed from `n = 4 = 3t + 1` shares, scalar- and group-side. -/
theorem Fdc.claim_C6_witness :
    Fdc.ShareVector.recover (Fdc.Polynomial.shares (Fdc.Polynomial.rand 7 3 [2]) 4) = 3
    ∧ Fdc.PublicShareVector.recover
        (Fdc.ShareVector.mulP (Fdc.Polynomial.shares (Fdc.Polynomial.rand 7 3 [2]) 4)
          (Fdc.G 7))
      = Fdc.smul 3 (Fdc.G 7) := by
  have hlen : ([2] : List (ZMod 7)).length + 1 ≤ 4 := by decide
  have hq : (4 : ℕ) < 7 := by decide
  have h32 : (4 : ℕ) < 2 ^ 32 := by decide
  haveI : Fact (Nat.Prime 7) := ⟨by norm_num⟩
  exact Fdc.claim_C6 7 4 3 ([2] : List (ZMod 7)) hlen hq h32

namespace Fdc.Client

/-- `getLastD` of a cons shifts the fallback. -/
theorem getLastD_cons' {α : Type} (a d : α) (l : List α) :
    (a :: l).getLastD d = l.getLastD a := by
  cases l <;> simp [List.getLastD]

/-- The recovery loop splits over list append, threading the lambda state. -/
theorem recoverLoop_append (q : ℕ) (env : HashEnv q) :
    ∀ (xs ys : List (Rn q)) (lam? : Option LambdaKey),
      recoverLoop env lam? (xs ++ ys)
        = match recoverLoop env lam? xs with
          | .error er => .error er
          | .ok (acc, lam2) =>
            match recoverLoop env lam2 ys with
            | .error er => .error er
            | .ok (acc2, lam3) => .ok (acc ++ acc2, lam3) := by
  intro xs
  induction xs with
  | nil =>
    intro ys lam?
    simp only [List.nil_append, recoverLoop]
    cases recoverLoop env lam? ys with
    | error er => rfl
    | ok p => rfl
  | cons rn rest ih =>
    intro ys lam?
    cases lam? with
    | none => rfl
    | some lam =>
      simp only [List.cons_append, recoverLoop, List.append_eq]
      cases hdat : rn.data.data env lam with
      | error er => simp [hdat]
      | ok rd =>
        simp only [hdat]
        rw [ih ys rd.lprev]
        cases hrec : recoverLoop env rd.lprev rest with
        | error er => simp [hrec]
        | ok p =>
          obtain ⟨acc, lam2⟩ := p
          simp only [hrec]
          cases h2 : recoverLoop env lam2 ys with
          | error er => simp [h2]
          | ok p2 =>
            obtain ⟨acc2, lam3⟩ := p2
            simp [h2]

/-- A record signed over its own digest passes `check` and returns that
digest. -/
theorem check_of_sign (q : ℕ) (env : HashEnv q) (skp : KeyPair q)
    (hskp : skp.key = smul skp.secret (G q)) (idv? hprev? : Option Bytes) (red : REncData q) :
    Rn.check env ⟨idv?, hprev?, red, ExtSignature.sign env skp
        (Record.hash env (hprev?.getD []) red)⟩
      = .ok (Record.hash env (hprev?.getD []) red) := by
  have hv := Fdc.sign_verify_eq q env skp (Record.hash env (hprev?.getD []) red) hskp
  simp [Rn.check, ExtSignature.sign, ExtSignature.verify, hv]

/-- Pushing the written tails one by one succeeds, extends the chain in
order, and leaves `lhash` at the last record's digest. -/
theorem foldlM_push_writeTails (q : ℕ) (env : HashEnv q) (skp : KeyPair q)
    (hskp : skp.key = smul skp.secret (G q)) (ekey : PublicKey q) (saltOf : Bytes → Bytes) :
    ∀ (entries : List (ZMod q × RDataRef)) (hprev : Bytes) (lamPrev : LambdaKey)
      (c : RecordChain q), c.lhash = hprev →
      List.foldlM (RecordChain.push env) c
          ((writeTails env skp ekey saltOf hprev lamPrev entries).map Prod.snd)
        = .ok ⟨lastDhash env hprev
              ((writeTails env skp ekey saltOf hprev lamPrev entries).map Prod.snd),
            c.chain ++ (writeTails env skp ekey saltOf hprev lamPrev entries).map Prod.snd⟩ := by
  intro entries
  induction entries with
  | nil =>
    intro hprev lamPrev c hc
    obtain ⟨lh, ch⟩ := c
    simp only [RecordChain.mk.injEq] at hc
    subst hc
    simp only [writeTails, List.map_nil, List.foldlM_nil, List.append_nil, lastDhash]
    rfl
  | cons e rest ih =>
    obtain ⟨k, dref⟩ := e
    intro hprev lamPrev c hc
    simp only [writeTails, List.map_cons, List.foldlM_cons]
    set red := (REncData.new env k ekey (saltOf hprev) ⟨some lamPrev, dref⟩).2 with hredd
    set lam1 := (REncData.new env k ekey (saltOf hprev) ⟨some lamPrev, dref⟩).1 with hlam1
    set dh := Record.hash env hprev red with hdh
    set rn1 : Rn q := ⟨none, some hprev, red, ExtSignature.sign env skp dh⟩ with hrn1
    have hpush : RecordChain.push env c rn1 = .ok ⟨dh, c.chain ++ [rn1]⟩ := by
      have hck := check_of_sign q env skp hskp none (some hprev) red
      simp only [Option.getD_some] at hck
      rw [hrn1, hdh]
      simp [RecordChain.push, hck, hc, hdh, Bind.bind, Except.bind]
    rw [hpush]
    simp only [Bind.bind, Except.bind]
    rw [ih dh lam1 ⟨dh, c.chain ++ [rn1]⟩ rfl]
    simp only [lastDhash, hrn1, Option.getD_some, List.append_assoc, List.cons_append,
      List.nil_append]

/-- Walking the written tails backwards with the last lambda decrypts every
record, yields the file references in reverse order, and ends in the lambda
that seeded the sequence — the backward-chained key schedule. -/
theorem recoverLoop_writeTails (q : ℕ) (env : HashEnv q)
    (hdec : ∀ lam m, env.dec lam (env.enc lam m) = some m)
    (hser : ∀ rd, env.deserRData (env.serRData rd) = some rd)
    (skp : KeyPair q) (ekey : PublicKey q) (saltOf : Bytes → Bytes) :
    ∀ (entries : List (ZMod q × RDataRef)) (hprev : Bytes) (lamPrev : LambdaKey),
      recoverLoop env
          (some (lastLam lamPrev (writeTails env skp ekey saltOf hprev lamPrev entries)))
          (((writeTails env skp ekey saltOf hprev lamPrev entries).map Prod.snd).reverse)
        = .ok ((entries.map Prod.snd).reverse, some lamPrev) := by
  intro entries
  induction entries with
  | nil => intro hprev lamPrev; rfl
  | cons e rest ih =>
    obtain ⟨k, dref⟩ := e
    intro hprev lamPrev
    simp only [writeTails, List.map_cons, List.reverse_cons, lastLam]
    set red := (REncData.new env k ekey (saltOf hprev) ⟨some lamPrev, dref⟩).2 with hredd
    set lam1 := (REncData.new env k ekey (saltOf hprev) ⟨some lamPrev, dref⟩).1 with hlam1
    set dh := Record.hash env hprev red with hdh
    set rn1 : Rn q := ⟨none, some hprev, red, ExtSignature.sign env skp dh⟩ with hrn1
    rw [recoverLoop_append]
    rw [ih dh lam1]
    have hdat : rn1.data.data env lam1 = .ok ⟨some lamPrev, dref⟩ := by
      rw [hrn1]
      show REncData.data env red lam1 = _
      rw [hredd, hlam1]
      simp [REncData.new, REncData.data, hdec, hser]
    simp [recoverLoop, hdat]

/-- With the uniform salt `s0`, the lambda of the last written record is the
lambda hash of `kk·ekey` and `s0`, where `kk·G` is the last record's `kn` —
the shape the single-alpha `recover` needs. -/
theorem lastKn_writeTails (q : ℕ) (env : HashEnv q) (skp : KeyPair q) (ekey : PublicKey q)
    (s0 : Bytes) :
    ∀ (entries : List (ZMod q × RDataRef)) (hprev : Bytes) (kPrev : ZMod q) (rnPrev : Rn q),
      rnPrev.data.kn = smul kPrev (G q) →
      ∃ kk : ZMod q,
        lastLam (env.lambdaHash (smul kPrev ekey) s0)
            (writeTails env skp ekey (fun _ => s0) hprev
              (env.lambdaHash (smul kPrev ekey) s0) entries)
          = env.lambdaHash (smul kk ekey) s0
        ∧ ((rnPrev :: (writeTails env skp ekey (fun _ => s0) hprev
              (env.lambdaHash (smul kPrev ekey) s0) entries).map Prod.snd).getLastD
            rnPrev).data.kn
          = smul kk (G q) := by
  intro entries
  induction entries with
  | nil =>
    intro hprev kPrev rnPrev hkn
    exact ⟨kPrev, rfl, by simpa [List.getLastD] using hkn⟩
  | cons e rest ih =>
    obtain ⟨k, dref⟩ := e
    intro hprev kPrev rnPrev hkn
    simp only [writeTails, List.map_cons, lastLam]
    set lamP := env.lambdaHash (smul kPrev ekey) s0 with hlamP
    set red := (REncData.new env k ekey s0 ⟨some lamP, dref⟩).2 with hredd
    set dh := Record.hash env hprev red with hdh
    set rn1 : Rn q := ⟨none, some hprev, red, ExtSignature.sign env skp dh⟩ with hrn1
    have hlam1 : (REncData.new env k ekey s0 ⟨some lamP, dref⟩).1
        = env.lambdaHash (smul k ekey) s0 := rfl
    have hkn1 : rn1.data.kn = smul k (G q) := rfl
    obtain ⟨kk, h1, h2⟩ := ih dh k rn1 hkn1
    refine ⟨kk, ?_, ?_⟩
    · rw [← h1, hlam1]
    · rw [getLastD_cons'] at h2
      rw [getLastD_cons', getLastD_cons']
      exact h2

/-- Every written record decrypts under its own lambda to a payload whose
`lprev` is exactly the previous record's lambda. -/
theorem chain'_writeTails (q : ℕ) (env : HashEnv q)
    (hdec : ∀ lam m, env.dec lam (env.enc lam m) = some m)
    (hser : ∀ rd, env.deserRData (env.serRData rd) = some rd)
    (skp : KeyPair q) (ekey : PublicKey q) (saltOf : Bytes → Bytes) :
    ∀ (entries : List (ZMod q × RDataRef)) (hprev : Bytes) (lamPrev : LambdaKey)
      (rnPrev : Rn q),
      List.Chain' (fun pr nx => (REncData.data env nx.2.data nx.1).map RData.lprev
          = Except.ok (some pr.1))
        ((lamPrev, rnPrev) :: writeTails env skp ekey saltOf hprev lamPrev entries) := by
  intro entries
  induction entries with
  | nil => intro hprev lamPrev rnPrev; exact List.chain'_singleton _
  | cons e rest ih =>
    obtain ⟨k, dref⟩ := e
    intro hprev lamPrev rnPrev
    simp only [writeTails]
    rw [List.chain'_cons]
    refine ⟨?_, ih _ _ _⟩
    simp [REncData.new, REncData.data, hdec, hser, Except.map]

/-- C1 as amended: a chain whose records are all encrypted with the salt
`salt(id, table)` — the salt the implemented `recover` derives — assembles
through `new` and `push`, and `recover` with the single trapdoor point
`alpha = e · (last record's kn)` returns the original file references in
head-first order; every record decrypts under its own lambda to a payload
whose `lprev` is the lambda of the immediately preceding record.  With the
spec's per-record salting of tails, a single point does not suffice (see the
counterexample). -/
theorem claim_C1 (q : ℕ) (env : HashEnv q)
    (hdec : ∀ lam m, env.dec lam (env.enc lam m) = some m)
    (hser : ∀ rd, env.deserRData (env.serRData rd) = some rd)
    (skp : KeyPair q) (hskp : skp.key = smul skp.secret (G q))
    (e : ZMod q) (idv set : Bytes) (k1 : ZMod q) (d1 : RDataRef)
    (rest : List (ZMod q × RDataRef)) :
    ∃ c : RecordChain q,
      buildChain env
          ((writeChain env skp (smul e (G q)) idv set (fun _ => saltB env idv set)
            ((k1, d1) :: rest)).map Prod.snd)
        = .ok c
      ∧ c.chain = (writeChain env skp (smul e (G q)) idv set (fun _ => saltB env idv set)
          ((k1, d1) :: rest)).map Prod.snd
      ∧ RecordChain.recover env idv set c (smul e c.kn)
          = .ok (((k1, d1) :: rest).map Prod.snd)
      ∧ List.Chain' (fun pr nx => (REncData.data env nx.2.data nx.1).map RData.lprev
            = Except.ok (some pr.1))
          (writeChain env skp (smul e (G q)) idv set (fun _ => saltB env idv set)
            ((k1, d1) :: rest)) := by
  simp only [writeChain, List.map_cons]
  set ekey := smul e (G q) with hekey
  set s0 := saltB env idv set with hs0
  set red1 := (REncData.new env k1 ekey s0 ⟨none, d1⟩).2 with hred1
  set lam1 := (REncData.new env k1 ekey s0 ⟨none, d1⟩).1 with hlam1
  set dh1 := Record.hash env s0 red1 with hdh1
  set head : Rn q := ⟨some idv, some s0, red1, ExtSignature.sign env skp dh1⟩ with hhead
  set tails := writeTails env skp ekey (fun _ => s0) dh1 lam1 rest with htails
  have hlam1eq : lam1 = env.lambdaHash (smul k1 ekey) s0 := rfl
  refine ⟨⟨lastDhash env dh1 (tails.map Prod.snd), head :: tails.map Prod.snd⟩,
    ?_, rfl, ?_, ?_⟩
  · -- the chain assembles through new and push
    have hck := check_of_sign q env skp hskp (some idv) (some s0) red1
    simp only [Option.getD_some] at hck
    rw [← hdh1] at hck
    rw [← hhead] at hck
    have hnew : RecordChain.new env head = .ok ⟨dh1, [head]⟩ := by
      simp [RecordChain.new, hck, hhead, Bind.bind, Except.bind]
    simp only [buildChain, hnew, Bind.bind, Except.bind]
    have hfold := foldlM_push_writeTails q env skp hskp ekey (fun _ => s0) rest dh1 lam1
      ⟨dh1, [head]⟩ rfl
    rw [← htails] at hfold
    rw [hfold]
    simp
  · -- recovery with the single trapdoor point
    obtain ⟨kk, hkl, hkkn⟩ :=
      lastKn_writeTails q env skp ekey s0 rest dh1 k1 head (by rw [hhead]; rfl)
    rw [← hlam1eq, ← htails] at hkl hkkn
    have hknc : RecordChain.kn
        ⟨lastDhash env dh1 (tails.map Prod.snd), head :: tails.map Prod.snd⟩
        = smul kk (G q) := by
      rw [RecordChain.kn]
      rw [getLastD_cons'] at hkkn ⊢
      exact hkkn
    rw [hknc]
    have halpha : smul e (smul kk (G q)) = smul kk ekey := by
      rw [hekey]
      simp only [smul, PublicKey.mk.injEq]
      ring
    simp only [RecordChain.recover, halpha, ← hs0]
    have hrl := recoverLoop_writeTails q env hdec hser skp ekey (fun _ => s0) rest dh1 lam1
    rw [← htails] at hrl
    rw [List.reverse_cons, recoverLoop_append, ← hkl, hrl]
    have hdat : head.data.data env lam1 = .ok ⟨none, d1⟩ := by
      rw [hhead]
      show REncData.data env red1 lam1 = _
      rw [hred1, hlam1]
      simp [REncData.new, REncData.data, hdec, hser]
    simp [recoverLoop, hdat]
  · -- the decrypted lprev chain
    exact chain'_writeTails q env hdec hser skp ekey (fun _ => s0) rest dh1 lam1 head

/-- Counterexample to C1 as stated: a two-record chain written with the
spec's salting for tails (`salt_k` = the record's own `hprev`) assembles
through `new`/`push`, yet `recover` with the single trapdoor point
`alpha = e·kn_last` fails with `DecryptFailed` at the last record instead of
returning the original payloads — its lambda was derived under the
prev-hash salt, not `salt(id, table)`. -/
theorem claim_C1_counter :
    buildChain (Fdc.envC 11) Fdc.rnsC1 = .ok Fdc.chainC1
    ∧ RecordChain.recover (Fdc.envC 11) [1] [2] Fdc.chainC1
        (smul 3 Fdc.chainC1.kn) = .error .decryptFailed
    ∧ (Except.error Err.decryptFailed : Except Err (List RDataRef))
        ≠ .ok (Fdc.entriesC1.map Prod.snd) := by
  decide

/-- Witness for C1 at a concrete two-record chain over `ZMod 11`, written
with the uniform `salt(id, table)` salting. -/
theorem claim_C1_witness :
    ∃ c : RecordChain 11,
      buildChain (Fdc.envC 11)
          ((writeChain (Fdc.envC 11) Fdc.kpC (smul 3 (G 11)) [1] [2]
            (fun _ => saltB (Fdc.envC 11) [1] [2])
            ((4, ⟨KeySize.S128, [5], [6]⟩) :: [(5, ⟨KeySize.S192, [7], [8]⟩)])).map Prod.snd)
        = .ok c
      ∧ c.chain = (writeChain (Fdc.envC 11) Fdc.kpC (smul 3 (G 11)) [1] [2]
          (fun _ => saltB (Fdc.envC 11) [1] [2])
          ((4, ⟨KeySize.S128, [5], [6]⟩) :: [(5, ⟨KeySize.S192, [7], [8]⟩)])).map Prod.snd
      ∧ RecordChain.recover (Fdc.envC 11) [1] [2] c (smul 3 c.kn)
          = .ok (((4, ⟨KeySize.S128, [5], [6]⟩) :: [(5, ⟨KeySize.S192, [7], [8]⟩)]).map
              Prod.snd)
      ∧ List.Chain' (fun pr nx => (REncData.data (Fdc.envC 11) nx.2.data nx.1).map RData.lprev
            = Except.ok (some pr.1))
          (writeChain (Fdc.envC 11) Fdc.kpC (smul 3 (G 11)) [1] [2]
            (fun _ => saltB (Fdc.envC 11) [1] [2])
            ((4, ⟨KeySize.S128, [5], [6]⟩) :: [(5, ⟨KeySize.S192, [7], [8]⟩)])) :=
  claim_C1 11 (Fdc.envC 11) (Fdc.envC_dec 11) (Fdc.envC_deser 11) Fdc.kpC (by decide)
    3 [1] [2] 4 ⟨KeySize.S128, [5], [6]⟩ [(5, ⟨KeySize.S192, [7], [8]⟩)]

end Fdc.Client
